import Mathlib

/-!
Verification development for the Naamrot text converter (app.js).

The converter rewrites English text into a stylized phonetic spelling.
It preserves non-word spans, transforms each word token (maximal ASCII
letter run with internal single hyphens/apostrophes) per-part through an
ordered rule pipeline over a segment sequence (character plus an
`origin` flag), and upper-cases the whole output at the end.

Strings are modelled as `List Char`.  JavaScript's case conversions
are modelled at two levels.  `jsToUpper` / `jsToLower` are
single-code-point maps on the Basic Latin and Latin-1 ranges, used for
the per-character comparisons inside the word-part engine; they are
extensionally exact for every comparison the engine makes (each such
comparison tests a character's upper-case image against a single ASCII
letter or the vowel set, and no code point outside those ranges has an
upper-case image that is a single ASCII letter the engine tests for,
the long s `ſ` → `S` excepted — and `ſ` can never reach the engine,
since the tokenizer admits only ASCII letters into word-parts).
`jsToUpperString` is the string-level `toUpperCase` applied once to
the whole output: it additionally models the multi-character and
cross-block images `ß` → `"SS"`, `µ` → `Μ` and `ſ` → `S`; the
remaining code points at and above U+0100 are left unchanged.  The one
theorem quantifying over arbitrary inputs through `jsToUpperString`
(the amended C1) compares the same upper-casing on both of its sides
and only needs that ASCII letters have ASCII-letter images, so its
truth does not depend on the unmodelled mappings.
-/

namespace Naamrot

/-- String literal to character list. -/
def toL (s : String) : List Char := s.data

/-- The apostrophe character (U+0027). -/
def apos : Char := Char.ofNat 39

/-- `isLetter` from the source: ASCII `A`-`Z` or `a`-`z` (by char code). -/
def isLetter (c : Char) : Bool :=
  (decide (65 ≤ c.toNat) && decide (c.toNat ≤ 90)) ||
    (decide (97 ≤ c.toNat) && decide (c.toNat ≤ 122))

/-- The single-code-point fragment of JS `toUpperCase`, on Basic Latin
and Latin-1: `a`-`z` and the Latin-1 lowercase letters map up by 32,
`ÿ` maps to `Ÿ`; other characters are unchanged.  Used for the
engine's per-character tests (see the header); the string-level
conversion with its expansions is `jsToUpperString` below. -/
def jsToUpper (c : Char) : Char :=
  if 97 ≤ c.toNat ∧ c.toNat ≤ 122 then Char.ofNat (c.toNat - 32)
  else if (224 ≤ c.toNat ∧ c.toNat ≤ 246) ∨ (248 ≤ c.toNat ∧ c.toNat ≤ 254) then
    Char.ofNat (c.toNat - 32)
  else if c.toNat = 255 then Char.ofNat 376
  else c

/-- Character-wise model of JS `toLowerCase` on Basic Latin / Latin-1. -/
def jsToLower (c : Char) : Char :=
  if 65 ≤ c.toNat ∧ c.toNat ≤ 90 then Char.ofNat (c.toNat + 32)
  else if (192 ≤ c.toNat ∧ c.toNat ≤ 214) ∨ (216 ≤ c.toNat ∧ c.toNat ≤ 222) then
    Char.ofNat (c.toNat + 32)
  else c

/-- The string-level upper-case image of one character, as a character
list: the expansion `ß` (U+00DF) → `"SS"`, the cross-block images `µ`
(U+00B5) → `Μ` (U+039C) and `ſ` (U+017F) → `S`, and otherwise the
single-code-point map `jsToUpper`. -/
def jsUpperChars (c : Char) : List Char :=
  if c.toNat = 223 then ['S', 'S']
  else if c.toNat = 181 then [Char.ofNat 924]
  else if c.toNat = 383 then ['S']
  else [jsToUpper c]

/-- String-level model of JS `String.prototype.toUpperCase` (see the
header for the modelled range). -/
def jsToUpperString (l : List Char) : List Char :=
  l.flatMap jsUpperChars

/-- The `VOWELS` set of the source. -/
def VOWELS : List Char := ['A', 'E', 'I', 'O', 'U']

/-- The `SWAPPABLE` set of the source (`U`, `O` do not swap). -/
def SWAPPABLE : List Char := ['A', 'E', 'I']

/-- `isConsonantLetter` from the source: a letter that is not a vowel
(`Y` counts as a consonant). -/
def isConsonantLetter (c : Char) : Bool :=
  isLetter c && !(VOWELS.contains (jsToUpper c))

/-- A segment: one character tagged with its origin
(`origin = true` means user-typed, eligible for vowel swapping). -/
structure Seg where
  ch : Char
  origin : Bool
deriving DecidableEq, Repr

/-- `segFromString`: build segments from a string with a common origin flag. -/
def segFromString (s : List Char) (origin : Bool) : List Seg :=
  s.map (fun c => ⟨c, origin⟩)

/-- `segToString`: render a segment sequence back to a string. -/
def segToString (segs : List Seg) : List Char :=
  segs.map (fun s => s.ch)

/-- `spliceSegs(segs, start, stop, ins)`: replace the index range
`[start, stop)` with `ins` (JS `Array.prototype.splice`; every call in
the source uses an in-range, non-negative range). -/
def spliceSegs (segs : List Seg) (start stop : Nat) (ins : List Seg) : List Seg :=
  segs.take start ++ ins ++ segs.drop stop

/-- The rendered string, upper-cased (`segToString(segs).toUpperCase()`). -/
def renderUpper (segs : List Seg) : List Char :=
  (segToString segs).map jsToUpper

/-! ## Exceptions -/

/-- The `EXCEPTIONS` table.  Every entry of the shipped table is a
regex of the form `/^word$/i` (or `/^(you|your)$/i`), i.e. a
case-insensitive whole-string comparison, with a fixed output string;
each entry is modelled as its list of matching lowercase words paired
with its output (function-valued outputs are unused in the table). -/
def EXCEPTIONS : List (List (List Char) × List Char) :=
  [ ([toL "very"], toL "WELL"),
    ([toL "well"], toL "WELL"),
    ([toL "you", toL "your"], toL "YA"),
    ([toL "the"], toL "THA"),
    ([toL "for"], toL "FA"),
    ([toL "please"], toL "PALEASE"),
    ([toL "deadline"], toL "DODLINE"),
    ([toL "mistakes"], toL "MOSTAKES"),
    ([toL "aminur"], toL "AMINAH"),
    ([toL "date"], toL "DATE"),
    ([toL "name"], toL "NAME"),
    ([toL "set"], toL "SOT") ]

/-- Whether an exception entry matches a word-part (case-insensitive
whole-string comparison, as the anchored `/^...$/i` regexes do). -/
def exMatches (ex : List (List Char) × List Char) (wp : List Char) : Bool :=
  ex.1.contains (wp.map jsToLower)

/-- `applyExceptions`: first matching entry in table order wins;
`some out` corresponds to `{hit: true, out}`. -/
def applyExceptions (wp : List Char) : Option (List Char) :=
  (EXCEPTIONS.find? (fun ex => exMatches ex wp)).map (fun ex => ex.2)

/-! ## Protected suffixes -/

/-- The `PROTECTED_SUFFIXES` list, after the source's stable sort by
descending length (ties keep the original order). -/
def PROTECTED_SUFFIXES : List (List Char) :=
  [ toL "SHAN", toL "MENT", toL "TION", toL "NESS", toL "ABLE", toL "IBLE",
    toL "ING", toL "OUS", toL "IVE", toL "ITY", toL "ED", toL "ER", toL "LY",
    toL "AL" ]

/-- `protectedSuffixStartIndex`: start index of the first (longest)
matching protected suffix of the upper-cased rendering, else the length. -/
def protectedSuffixStartIndex (segs : List Seg) : Nat :=
  match PROTECTED_SUFFIXES.find? (fun suf => suf.isSuffixOf (renderUpper segs)) with
  | some suf => (renderUpper segs).length - suf.length
  | none => (renderUpper segs).length

/-! ## Suffix rules -/

/-- `applyEndingAH`: ending `ER`/`UR` becomes `AH`, else ending `A`
becomes `AH`; the boolean is the source's `changed` result. -/
def applyEndingAH (segs : List Seg) : List Seg × Bool :=
  if (toL "ER").isSuffixOf (renderUpper segs) || (toL "UR").isSuffixOf (renderUpper segs) then
    (spliceSegs segs (segs.length - 2) segs.length (segFromString (toL "AH") false), true)
  else if (toL "A").isSuffixOf (renderUpper segs) then
    (spliceSegs segs (segs.length - 1) segs.length (segFromString (toL "AH") false), true)
  else (segs, false)

/-- `replaceAllERWithAH`: the in-place left-to-right loop replacing each
non-overlapping `ER` pair with `AH` (origin `false`); each replacement
keeps the length and the scan resumes after the inserted pair. -/
def replaceAllERWithAH : List Seg → List Seg
  | a :: b :: rest =>
    if jsToUpper a.ch = 'E' ∧ jsToUpper b.ch = 'R' then
      ⟨'A', false⟩ :: ⟨'H', false⟩ :: replaceAllERWithAH rest
    else a :: replaceAllERWithAH (b :: rest)
  | l => l

/-- `replaceAllIRWithAR`: same loop shape, replacing `IR` with `AR`. -/
def replaceAllIRWithAR : List Seg → List Seg
  | a :: b :: rest =>
    if jsToUpper a.ch = 'I' ∧ jsToUpper b.ch = 'R' then
      ⟨'A', false⟩ :: ⟨'R', false⟩ :: replaceAllIRWithAR rest
    else a :: replaceAllIRWithAR (b :: rest)
  | l => l

/-- `replaceEndingTION`: ending `TION` becomes `SHAN`. -/
def replaceEndingTION (segs : List Seg) : List Seg :=
  if (toL "TION").isSuffixOf (renderUpper segs) && decide (4 ≤ segs.length) then
    spliceSegs segs (segs.length - 4) segs.length (segFromString (toL "SHAN") false)
  else segs

/-- `replaceEndingTY`: ending `TY` becomes `TEH`. -/
def replaceEndingTY (segs : List Seg) : List Seg :=
  if (toL "TY").isSuffixOf (renderUpper segs) && decide (2 ≤ segs.length) then
    spliceSegs segs (segs.length - 2) segs.length (segFromString (toL "TEH") false)
  else segs

/-- `replaceEndingAY`: ending `AY` becomes `AEH`. -/
def replaceEndingAY (segs : List Seg) : List Seg :=
  if (toL "AY").isSuffixOf (renderUpper segs) && decide (2 ≤ segs.length) then
    spliceSegs segs (segs.length - 2) segs.length (segFromString (toL "AEH") false)
  else segs

/-- `replaceEndingLY`: ending `LEY` becomes `LEH`, else ending `LY`
becomes `LEH`. -/
def replaceEndingLY (segs : List Seg) : List Seg :=
  if (toL "LEY").isSuffixOf (renderUpper segs) && decide (3 ≤ segs.length) then
    spliceSegs segs (segs.length - 3) segs.length (segFromString (toL "LEH") false)
  else if (toL "LY").isSuffixOf (renderUpper segs) && decide (2 ≤ segs.length) then
    spliceSegs segs (segs.length - 2) segs.length (segFromString (toL "LEH") false)
  else segs

/-- `replaceEndingYToEH`: a final `Y` becomes `EH` unless the current
string ends in `LY`, `LEY` or `TY`. -/
def replaceEndingYToEH (segs : List Seg) : List Seg :=
  if (toL "LY").isSuffixOf (renderUpper segs) || (toL "LEY").isSuffixOf (renderUpper segs)
      || (toL "TY").isSuffixOf (renderUpper segs) then segs
  else if (toL "Y").isSuffixOf (renderUpper segs) && decide (1 ≤ segs.length) then
    spliceSegs segs (segs.length - 1) segs.length (segFromString (toL "EH") false)
  else segs

/-! ## Prefix rules -/

/-- `replaceStartingSWWithSAW`: starting `SW` becomes `SAW`. -/
def replaceStartingSWWithSAW (segs : List Seg) : List Seg :=
  match segs with
  | a :: b :: rest =>
    if jsToUpper a.ch = 'S' ∧ jsToUpper b.ch = 'W' then
      spliceSegs (a :: b :: rest) 0 2 (segFromString (toL "SAW") false)
    else segs
  | _ => segs

/-- `replaceStartingSNWithSAN`: starting `SN` becomes `SAN`. -/
def replaceStartingSNWithSAN (segs : List Seg) : List Seg :=
  match segs with
  | a :: b :: rest =>
    if jsToUpper a.ch = 'S' ∧ jsToUpper b.ch = 'N' then
      spliceSegs (a :: b :: rest) 0 2 (segFromString (toL "SAN") false)
    else segs
  | _ => segs

/-- `applyPrefixREToRO` ("conservative RE → RO"): no change if the
lowercase rendering is exactly `re`; else if it starts with `re`, has
length at least 3 and the third character upper-cases to a vowel, the
first two characters become `ro` (origin `false`). -/
def applyPrefixREToRO (segs : List Seg) : List Seg :=
  if (segToString segs).map jsToLower = toL "re" then segs
  else if ((segToString segs).map jsToLower).take 2 = toL "re"
      ∧ 3 ≤ (segToString segs).length then
    if VOWELS.contains (jsToUpper ((segToString segs).getD 2 ' ')) then
      spliceSegs segs 0 2 (segFromString (toL "ro") false)
    else segs
  else segs

/-- The RE → RO rule exactly as the specification words it: if the
lowercase part equals `re`, no change; else if it starts with `re`
(length at least 3) and the third character is a vowel (`A`/`E`/`I`/`O`/`U`,
case-insensitively), replace the first two characters with `ro` as
origin-`false` segments; otherwise no change. -/
def specPrefixREToRO (segs : List Seg) : List Seg :=
  if (segToString segs).map jsToLower = toL "re" then segs
  else if ((segToString segs).map jsToLower).take 2 = toL "re"
      ∧ 3 ≤ (segToString segs).length
      ∧ VOWELS.contains (jsToUpper ((segToString segs).getD 2 ' ')) then
    segFromString (toL "ro") false ++ segs.drop 2
  else segs

/-! ## Consonant cluster insertion -/

/-- `applyClusterInsertions`: if the first three characters are
consonant, consonant, `R`, insert an origin-`false` `A` after the first
two; else if the first two are consonant then `R` or `L`, insert an
origin-`false` `A` after the first. -/
def applyClusterInsertions (segs : List Seg) : List Seg :=
  match segs with
  | a :: b :: c :: rest =>
    if isConsonantLetter a.ch && isConsonantLetter b.ch && decide (jsToUpper c.ch = 'R') then
      spliceSegs (a :: b :: c :: rest) 2 2 (segFromString (toL "A") false)
    else if isConsonantLetter a.ch
        && (decide (jsToUpper b.ch = 'R') || decide (jsToUpper b.ch = 'L')) then
      spliceSegs (a :: b :: c :: rest) 1 1 (segFromString (toL "A") false)
    else segs
  | a :: b :: rest =>
    if isConsonantLetter a.ch
        && (decide (jsToUpper b.ch = 'R') || decide (jsToUpper b.ch = 'L')) then
      spliceSegs (a :: b :: rest) 1 1 (segFromString (toL "A") false)
    else segs
  | _ => segs

/-! ## Vowel swaps -/

/-- Indices (from the given start index) of origin-`true` vowel segments. -/
def origVowelIdxFrom : Nat → List Seg → List Nat
  | _, [] => []
  | i, s :: rest =>
    if s.origin && VOWELS.contains (jsToUpper s.ch) then
      i :: origVowelIdxFrom (i + 1) rest
    else origVowelIdxFrom (i + 1) rest

/-- `origVowelIdx`: indices of origin-`true` vowels, left to right. -/
def origVowelIdx (segs : List Seg) : List Nat :=
  origVowelIdxFrom 0 segs

/-- The tail-protection set: if the ending did not become `AH` and
there is at least one original vowel, the last original-vowel index is
protected, and when there are exactly four original vowels the
second-to-last is protected too. -/
def tailProtect (idxs : List Nat) (endingChangedToAH : Bool) : List Nat :=
  if endingChangedToAH = false ∧ 1 ≤ idxs.length then
    idxs.getD (idxs.length - 1) 0 ::
      (if idxs.length = 4 then [idxs.getD (idxs.length - 2) 0] else [])
  else []

/-- The per-index swap condition of the vowel-swap loop: before the
protected-suffix boundary, origin `true`, swappable letter, not
tail-protected, and the (pre-loop) next character is not a vowel.  The
loop mutates strictly left to right, so each test reads pre-loop data. -/
def swapCond (orig : List Seg) (boundary : Nat) (protect : List Nat)
    (i : Nat) (s : Seg) : Bool :=
  decide (i < boundary) && s.origin && SWAPPABLE.contains (jsToUpper s.ch)
    && !(protect.contains i)
    && !(match orig[i + 1]? with
         | some t => VOWELS.contains (jsToUpper t.ch)
         | none => false)

/-- The vowel-swap loop body, carrying the running index. -/
def swapGo (orig : List Seg) (boundary : Nat) (protect : List Nat) :
    Nat → List Seg → List Seg
  | _, [] => []
  | i, s :: rest =>
    (if swapCond orig boundary protect i s then ⟨'o', false⟩ else s) ::
      swapGo orig boundary protect (i + 1) rest

/-- `applyVowelSwaps`: swap each eligible origin-`true` `A`/`E`/`I` to a
lower-case origin-`false` `o`, subject to the suffix boundary, the
tail-protection set and digraph protection, all computed up front. -/
def applyVowelSwaps (segs : List Seg) (endingChangedToAH : Bool) : List Seg :=
  swapGo segs (protectedSuffixStartIndex segs)
    (tailProtect (origVowelIdx segs) endingChangedToAH) 0 segs

/-! ## Word transformation -/

/-- The segment state reaching `applyEndingAH` inside
`transformWordPart`: suffix stages `ER`, `IR`, `TION`, `TY`, `LY`
applied in order to the fresh segments of the part. -/
def preAH (part : List Char) : List Seg :=
  replaceEndingLY (replaceEndingTY (replaceEndingTION
    (replaceAllIRWithAR (replaceAllERWithAH (segFromString part true)))))

/-- `transformWordPart`: exception short-circuit, else the full
suffix → prefix → cluster → vowel pipeline, upper-cased at the end. -/
def transformWordPart (part : List Char) : List Char :=
  match applyExceptions part with
  | some out => out.map jsToUpper
  | none =>
    let segsA := preAH part
    let p := applyEndingAH segsA
    let segsB := replaceEndingYToEH (replaceEndingAY p.1)
    let segsC := applyPrefixREToRO (replaceStartingSWWithSAW (replaceStartingSNWithSAN segsB))
    let segsD := applyClusterInsertions segsC
    let segsE := applyVowelSwaps segsD p.2
    (segToString segsE).map jsToUpper

/-- JS `token.split(/([-'])/)`: the pieces between separators (possibly
empty), with each separator kept as its own singleton piece. -/
def splitKeepSeps : List Char → List (List Char)
  | [] => [[]]
  | c :: cs =>
    if c = '-' ∨ c = apos then [] :: [c] :: splitKeepSeps cs
    else
      match splitKeepSeps cs with
      | p :: ps => (c :: p) :: ps
      | [] => [[c]]

/-- `transformWordToken`: split on hyphen/apostrophe keeping the
separators, transform every non-separator piece, and rejoin. -/
def transformWordToken (token : List Char) : List Char :=
  ((splitKeepSeps token).map
    (fun p => if p = ['-'] ∨ p = [apos] then p else transformWordPart p)).flatten

/-! ## Whole-text conversion

The source scans the input with `/[A-Za-z]+(?:[-'][A-Za-z]+)*/g`:
maximal letter runs, extended by a separator-plus-letters group exactly
when a hyphen or apostrophe directly after letters is itself directly
followed by a letter; everything between matches passes through
verbatim, and the final output is upper-cased once.  The scan is
modelled by the one-character-lookahead automaton `scanGo`, which
carries the (reversed) letters-and-separators of the token matched so
far. -/

/-- One chunk of the scanned input: a pass-through character or a word
token. -/
inductive Chunk where
  | pass (c : Char)
  | tok (t : List Char)
deriving DecidableEq, Repr

/-- Emit the accumulated token (if any) as a chunk. -/
def emitTok (tok : List Char) : List Chunk :=
  if tok = [] then [] else [Chunk.tok tok.reverse]

/-- The regex scan: `tok` is the reversed token matched so far (empty
when outside a token; its head is always a letter when non-empty). -/
def scanGo : List Char → List Char → List Chunk
  | tok, [] => emitTok tok
  | tok, [c] =>
    if isLetter c then emitTok (c :: tok)
    else emitTok tok ++ [Chunk.pass c]
  | tok, c :: d :: ds =>
    if isLetter c then scanGo (c :: tok) (d :: ds)
    else if tok ≠ [] ∧ (c = '-' ∨ c = apos) ∧ isLetter d = true then
      scanGo (d :: c :: tok) ds
    else emitTok tok ++ Chunk.pass c :: scanGo [] (d :: ds)

/-- Scan the input into pass-through characters and word tokens, as the
global regex match loop of `convertText` does. -/
def chunksOf (input : List Char) : List Chunk :=
  scanGo [] input

/-- Output of one chunk before the final upper-casing. -/
def chunkOut : Chunk → List Char
  | .pass c => [c]
  | .tok t => transformWordToken t

/-- `convertText`: transformed tokens and verbatim pass-through spans,
concatenated in order, then the whole output upper-cased once
(string-level: this is the one place arbitrary input characters are
upper-cased). -/
def convertText (input : List Char) : List Char :=
  jsToUpperString ((chunksOf input).flatMap chunkOut)

/-- The string-typed entry point. -/
def convert (s : String) : String :=
  String.mk (convertText s.data)

end Naamrot

namespace Naamrot

/-! ## Claim C4 -/

/-- C4: the RE-to-RO prefix rule behaves exactly as literally stated:
a part whose rendering lowercases to exactly `re` is unchanged; a part
whose rendering starts with `re` (case-insensitively), has length at
least 3 and whose third character is a vowel gets its first two
characters replaced by origin-`false` `ro`; every other part is
unchanged (`applyPrefixREToRO` equals the rule as worded by the spec). -/
theorem C4_re_to_ro_literal_behavior (segs : List Seg) :
    applyPrefixREToRO segs = specPrefixREToRO segs := by
  unfold applyPrefixREToRO specPrefixREToRO spliceSegs
  split_ifs <;> simp_all

/-! ## Claims C5, C6, C7: concrete whole-pipeline evaluations -/

/-- C5: evaluating the code at the claimed input: `convert "snake"`
returns `"SANOKE"`, not the claimed (and rulebook-documented)
`"SANAKE"`: the SN prefix rule does produce `SAN`, but the vowel-swap
stage then swaps the original `a` (only the last original vowel `e` is
tail-protected), contradicting the claim's "no other stage alters the
remaining letters". -/
theorem C5_convert_snake_eval :
    convert "snake" = "SANOKE" ∧ convert "snake" ≠ "SANAKE" := by
  constructor
  · decide
  · decide

/-- C6: evaluating the code at the claimed input:
`convert "information"` returns `"ONFORMASHAN"`, not the claimed (and
rulebook-documented) `"INFORMASHAN"`: `TION` does become `SHAN`, but
the vowel-swap stage also swaps the leading original `i`. -/
theorem C6_convert_information_eval :
    convert "information" = "ONFORMASHAN" ∧ convert "information" ≠ "INFORMASHAN" := by
  constructor
  · decide
  · decide

/-- C7 counterexample: `convert "don't stop"` does not return
`"DAN'T STAP"` (no rule maps `O` to `A`; the engine's swaps go the
other way). -/
theorem C7_counterexample_dont_stop :
    convertText (toL "don" ++ apos :: toL "t stop")
      ≠ toL "DAN" ++ apos :: toL "T STAP" := by
  decide

/-- C7 (amended): `convert "don't stop"` returns exactly `"DON'T STOP"`:
the apostrophe and the space are preserved at their positions and the
word-parts `don`, `t` and `stop` are transformed independently (each is
unchanged apart from upper-casing: their only vowels are tail-protected
or not swappable). -/
theorem C7_convert_dont_stop :
    convertText (toL "don" ++ apos :: toL "t stop")
      = toL "DON" ++ apos :: toL "T STOP" := by
  decide

end Naamrot

namespace Naamrot

theorem find_first_of_getElem {α : Type} (p : α → Bool) :
    ∀ (l : List α) (i : Nat) (a : α), l[i]? = some a → p a = true →
      (∀ j, j < i → (l[j]?).all (fun b => !p b) = true) →
      l.find? p = some a := by
  intro l
  induction l with
  | nil => intro i a h _ _; simp at h
  | cons x xs ih =>
    intro i a ha hp hj
    cases i with
    | zero =>
      simp at ha
      subst ha
      simp [List.find?_cons, hp]
    | succ n =>
      have h0 := hj 0 (Nat.succ_pos n)
      simp at h0
      rw [List.find?_cons_of_neg _ (by simp [h0])]
      refine ih n a (by simpa using ha) hp (fun j hjn => ?_)
      have := hj (j + 1) (Nat.succ_lt_succ hjn)
      simpa using this

/-- C2: if the `i`-th exception entry matches a word-part and no
earlier entry does (first match in table order wins), then
`transformWordPart` returns exactly that entry's output upper-cased;
the suffix, prefix, cluster-insertion and vowel-swap stages have no
effect on the result. -/
theorem C2_exception_first_match_short_circuits (wp : List Char) (i : Nat)
    (ex : List (List Char) × List Char)
    (hx : EXCEPTIONS[i]? = some ex) (hm : exMatches ex wp = true)
    (hj : ∀ j, j < i → (EXCEPTIONS[j]?).all (fun e => !exMatches e wp) = true) :
    transformWordPart wp = ex.2.map jsToUpper := by
  have hfind : EXCEPTIONS.find? (fun e => exMatches e wp) = some ex :=
    find_first_of_getElem _ EXCEPTIONS i ex hx hm hj
  simp [transformWordPart, applyExceptions, hfind]

theorem C2_witness :
    exMatches ([toL "the"], toL "THA") (toL "The") = true ∧
    transformWordPart (toL "The") = toL "THA" :=
  ⟨by decide, by
    rw [C2_exception_first_match_short_circuits (toL "The") 3 ([toL "the"], toL "THA")
      (by decide) (by decide) (by decide)]
    decide⟩

theorem swapGo_getElem? (orig : List Seg) (b : Nat) (prot : List Nat) :
    ∀ (l : List Seg) (i k : Nat),
      (swapGo orig b prot i l)[k]? =
        (l[k]?).map (fun s => if swapCond orig b prot (i + k) s then ⟨'o', false⟩ else s) := by
  intro l
  induction l with
  | nil => intro i k; simp [swapGo]
  | cons s rest ih =>
    intro i k
    cases k with
    | zero => simp [swapGo]
    | succ n =>
      have h := ih (i + 1) n
      simp only [swapGo, List.getElem?_cons_succ, h, Nat.succ_add, Nat.add_succ]

theorem applyVowelSwaps_skip_of_protected (segs : List Seg) (flag : Bool) (idx : Nat)
    (hmem : (tailProtect (origVowelIdx segs) flag).contains idx = true) :
    (applyVowelSwaps segs flag)[idx]? = segs[idx]? := by
  rw [applyVowelSwaps, swapGo_getElem?]
  have hcond : ∀ s, swapCond segs (protectedSuffixStartIndex segs)
      (tailProtect (origVowelIdx segs) flag) idx s = false := by
    intro s
    simp only [swapCond, hmem]
    simp
  simp [hcond]

/-- C3: for a word-part state entering the vowel-swap stage with
exactly four origin-`true` vowels and `endingChangedToAH = false`, the
vowel-swap stage leaves the segments at the last two original-vowel
indices completely unchanged (they are never swapped). -/
theorem C3_four_vowel_tail_protection (segs : List Seg)
    (h4 : (origVowelIdx segs).length = 4) :
    (applyVowelSwaps segs false)[(origVowelIdx segs).getD 2 0]? =
      segs[(origVowelIdx segs).getD 2 0]? ∧
    (applyVowelSwaps segs false)[(origVowelIdx segs).getD 3 0]? =
      segs[(origVowelIdx segs).getD 3 0]? := by
  have hprot : tailProtect (origVowelIdx segs) false =
      [(origVowelIdx segs).getD 3 0, (origVowelIdx segs).getD 2 0] := by
    unfold tailProtect
    rw [if_pos ⟨rfl, by omega⟩, h4]
    norm_num
  constructor
  · exact applyVowelSwaps_skip_of_protected segs false _ (by simp [hprot])
  · exact applyVowelSwaps_skip_of_protected segs false _ (by simp [hprot])

theorem C3_witness :
    (origVowelIdx (segFromString (toL "grammatical") true)).length = 4 ∧
    ((applyVowelSwaps (segFromString (toL "grammatical") true) false)[(origVowelIdx
        (segFromString (toL "grammatical") true)).getD 2 0]? =
      (segFromString (toL "grammatical") true)[(origVowelIdx
        (segFromString (toL "grammatical") true)).getD 2 0]? ∧
    (applyVowelSwaps (segFromString (toL "grammatical") true) false)[(origVowelIdx
        (segFromString (toL "grammatical") true)).getD 3 0]? =
      (segFromString (toL "grammatical") true)[(origVowelIdx
        (segFromString (toL "grammatical") true)).getD 3 0]?) :=
  ⟨by decide, C3_four_vowel_tail_protection _ (by decide)⟩

theorem scanGo_pass_all (l : List Char) (h : ∀ c ∈ l, isLetter c = false) :
    scanGo [] l = l.map Chunk.pass := by
  induction l with
  | nil => simp [scanGo, emitTok]
  | cons c cs ih =>
    cases cs with
    | nil => simp [scanGo, emitTok, h c (by simp)]
    | cons d ds =>
      have hc := h c (by simp)
      rw [scanGo]
      simp only [hc, Bool.false_eq_true, if_false, emitTok, if_pos rfl, List.nil_append]
      simp only [ne_eq, not_true_eq_false, false_and, if_false]
      rw [ih (fun x hx => h x (by simp [hx]))]
      simp

theorem flatMap_pass (l : List Char) :
    (l.map Chunk.pass).flatMap chunkOut = l := by
  induction l with
  | nil => simp
  | cons c cs ih => simp [chunkOut, ih]

/-- C8: the engine is total by construction (every function of this
model is a total Lean function over all `List Char` inputs, with no
fault paths); moreover on any letter-free input (empty, separator-only,
digits, punctuation) `convertText` returns the input upper-cased. -/
theorem C8_total_on_letter_free_input (input : List Char)
    (h : ∀ c ∈ input, isLetter c = false) :
    convertText input = jsToUpperString input := by
  unfold convertText chunksOf
  rw [scanGo_pass_all input h, flatMap_pass]

theorem C8_witness :
    (∀ c ∈ toL "- 123! " ++ [apos, Char.ofNat 223], isLetter c = false) ∧
    convertText (toL "- 123! " ++ [apos, Char.ofNat 223]) =
      jsToUpperString (toL "- 123! " ++ [apos, Char.ofNat 223]) :=
  ⟨by decide, C8_total_on_letter_free_input _ (by decide)⟩

end Naamrot

namespace Naamrot

/-- Whether some adjacent pair of segments upper-cases to `E`, `R`. -/
def hasERSeg : List Seg → Bool
  | a :: b :: rest =>
    (decide (jsToUpper a.ch = 'E') && decide (jsToUpper b.ch = 'R')) || hasERSeg (b :: rest)
  | _ => false

theorem hasERSeg_tail (s : Seg) (l : List Seg) (h : hasERSeg (s :: l) = false) :
    hasERSeg l = false := by
  cases l with
  | nil => rfl
  | cons t r =>
    rw [hasERSeg] at h
    simp only [Bool.or_eq_false_iff] at h
    exact h.2

theorem hasERSeg_cons (a : Seg) (l : List Seg) (hl : hasERSeg l = false)
    (hhead : ∀ s, l.head? = some s → ¬(jsToUpper a.ch = 'E' ∧ jsToUpper s.ch = 'R')) :
    hasERSeg (a :: l) = false := by
  cases l with
  | nil => rfl
  | cons t r =>
    rw [hasERSeg, hl]
    have := hhead t rfl
    simp only [Bool.or_false, Bool.and_eq_false_iff, decide_eq_false_iff_not]
    by_cases hE : jsToUpper a.ch = 'E'
    · right; exact fun hR => this ⟨hE, hR⟩
    · left; exact hE

theorem replaceAllERWithAH_head? (l : List Seg) :
    (replaceAllERWithAH l).head? = l.head? ∨
      (replaceAllERWithAH l).head? = some ⟨'A', false⟩ := by
  match l with
  | [] => left; rfl
  | [a] => left; rfl
  | a :: b :: rest =>
    rw [replaceAllERWithAH]
    by_cases h : jsToUpper a.ch = 'E' ∧ jsToUpper b.ch = 'R'
    · right; rw [if_pos h]; rfl
    · left; rw [if_neg h]; rfl

theorem replaceAllIRWithAR_head? (l : List Seg) :
    (replaceAllIRWithAR l).head? = l.head? ∨
      (replaceAllIRWithAR l).head? = some ⟨'A', false⟩ := by
  match l with
  | [] => left; rfl
  | [a] => left; rfl
  | a :: b :: rest =>
    rw [replaceAllIRWithAR]
    by_cases h : jsToUpper a.ch = 'I' ∧ jsToUpper b.ch = 'R'
    · right; rw [if_pos h]; rfl
    · left; rw [if_neg h]; rfl

theorem hasERSeg_replaceAllERWithAH (l : List Seg) :
    hasERSeg (replaceAllERWithAH l) = false := by
  induction l using replaceAllERWithAH.induct with
  | case1 a b rest h ih =>
    rw [replaceAllERWithAH, if_pos h]
    refine hasERSeg_cons _ _ (hasERSeg_cons _ _ ih ?_) ?_
    · intro s _ hER
      exact absurd hER.1 (by decide)
    · intro s hs hER
      simp only [List.head?_cons, Option.some.injEq] at hs
      rw [← hs] at hER
      exact absurd hER.2 (by decide)
  | case2 a b rest h ih =>
    rw [replaceAllERWithAH, if_neg h]
    refine hasERSeg_cons _ _ ih ?_
    intro s hs hER
    rcases replaceAllERWithAH_head? (b :: rest) with hh | hh
    · rw [hh] at hs
      simp only [List.head?_cons, Option.some.injEq] at hs
      rw [← hs] at hER
      exact h hER
    · rw [hh] at hs
      simp only [Option.some.injEq] at hs
      rw [← hs] at hER
      exact absurd hER.2 (by decide)
  | case3 l h =>
    cases l with
    | nil => rfl
    | cons a tl =>
      cases tl with
      | nil => rfl
      | cons b rest => exact absurd rfl (fun hh => h a b rest hh)

theorem hasERSeg_replaceAllIRWithAR (l : List Seg) (hin : hasERSeg l = false) :
    hasERSeg (replaceAllIRWithAR l) = false := by
  induction l using replaceAllIRWithAR.induct with
  | case1 a b rest h ih =>
    rw [replaceAllIRWithAR, if_pos h]
    have hrest : hasERSeg rest = false :=
      hasERSeg_tail _ _ (hasERSeg_tail _ _ hin)
    refine hasERSeg_cons _ _ (hasERSeg_cons _ _ (ih hrest) ?_) ?_
    · intro s _ hER
      exact absurd hER.1 (by decide)
    · intro s hs hER
      simp only [List.head?_cons, Option.some.injEq] at hs
      rw [← hs] at hER
      exact absurd hER.1 (by decide)
  | case2 a b rest h ih =>
    rw [replaceAllIRWithAR, if_neg h]
    have htl : hasERSeg (b :: rest) = false := hasERSeg_tail _ _ hin
    refine hasERSeg_cons _ _ (ih htl) ?_
    intro s hs hER
    rcases replaceAllIRWithAR_head? (b :: rest) with hh | hh
    · rw [hh] at hs
      simp only [List.head?_cons, Option.some.injEq] at hs
      rw [← hs] at hER
      rw [hasERSeg] at hin
      simp only [Bool.or_eq_false_iff, Bool.and_eq_false_iff,
        decide_eq_false_iff_not] at hin
      rcases hin.1 with hbad | hbad
      · exact hbad hER.1
      · exact hbad hER.2
    · rw [hh] at hs
      simp only [Option.some.injEq] at hs
      rw [← hs] at hER
      exact absurd hER.2 (by decide)
  | case3 l h =>
    cases l with
    | nil => rfl
    | cons a tl =>
      cases tl with
      | nil => rfl
      | cons b rest => exact absurd rfl (fun hh => h a b rest hh)

end Naamrot

namespace Naamrot

theorem hasERSeg_pair_false (a b : Seg) (r : List Seg)
    (h : hasERSeg (a :: b :: r) = false) :
    ¬(jsToUpper a.ch = 'E' ∧ jsToUpper b.ch = 'R') := by
  rw [hasERSeg] at h
  simp only [Bool.or_eq_false_iff, Bool.and_eq_false_iff,
    decide_eq_false_iff_not] at h
  intro hER
  rcases h.1 with hbad | hbad
  · exact hbad hER.1
  · exact hbad hER.2

theorem hasERSeg_take (l : List Seg) (h : hasERSeg l = false) (n : Nat) :
    hasERSeg (l.take n) = false := by
  induction l generalizing n with
  | nil => rw [List.take_nil]; rfl
  | cons a tl ih =>
    cases n with
    | zero => rfl
    | succ m =>
      rw [List.take_succ_cons]
      refine hasERSeg_cons _ _ (ih (hasERSeg_tail _ _ h) m) ?_
      intro s hs hER
      cases tl with
      | nil => rw [List.take_nil] at hs; simp at hs
      | cons b r =>
        cases m with
        | zero => simp at hs
        | succ k =>
          rw [List.take_succ_cons] at hs
          simp only [List.head?_cons, Option.some.injEq] at hs
          rw [← hs] at hER
          exact hasERSeg_pair_false a b r h hER

theorem hasERSeg_append (l m : List Seg) (hl : hasERSeg l = false)
    (hm : hasERSeg m = false)
    (hhead : ∀ s, m.head? = some s → jsToUpper s.ch ≠ 'R') :
    hasERSeg (l ++ m) = false := by
  induction l with
  | nil => simpa using hm
  | cons a tl ih =>
    rw [List.cons_append]
    refine hasERSeg_cons _ _ (ih (hasERSeg_tail _ _ hl)) ?_
    intro s hs hER
    cases tl with
    | nil =>
      simp only [List.nil_append] at hs
      exact hhead s hs hER.2
    | cons b r =>
      rw [List.cons_append] at hs
      simp only [List.head?_cons, Option.some.injEq] at hs
      rw [← hs] at hER
      exact hasERSeg_pair_false a b r hl hER

theorem hasERSeg_replaceEndingTION (segs : List Seg) (h : hasERSeg segs = false) :
    hasERSeg (replaceEndingTION segs) = false := by
  unfold replaceEndingTION
  split
  · unfold spliceSegs
    rw [List.drop_length, List.append_nil]
    refine hasERSeg_append _ _ (hasERSeg_take _ h _) (by decide) ?_
    intro s hs
    have hh : (segFromString (toL "SHAN") false).head? = some ⟨'S', false⟩ := by decide
    rw [hh] at hs
    simp only [Option.some.injEq] at hs
    rw [← hs]
    decide
  · exact h

theorem hasERSeg_replaceEndingTY (segs : List Seg) (h : hasERSeg segs = false) :
    hasERSeg (replaceEndingTY segs) = false := by
  unfold replaceEndingTY
  split
  · unfold spliceSegs
    rw [List.drop_length, List.append_nil]
    refine hasERSeg_append _ _ (hasERSeg_take _ h _) (by decide) ?_
    intro s hs
    have hh : (segFromString (toL "TEH") false).head? = some ⟨'T', false⟩ := by decide
    rw [hh] at hs
    simp only [Option.some.injEq] at hs
    rw [← hs]
    decide
  · exact h

theorem hasERSeg_replaceEndingLY (segs : List Seg) (h : hasERSeg segs = false) :
    hasERSeg (replaceEndingLY segs) = false := by
  unfold replaceEndingLY
  split
  · unfold spliceSegs
    rw [List.drop_length, List.append_nil]
    refine hasERSeg_append _ _ (hasERSeg_take _ h _) (by decide) ?_
    intro s hs
    have hh : (segFromString (toL "LEH") false).head? = some ⟨'L', false⟩ := by decide
    rw [hh] at hs
    simp only [Option.some.injEq] at hs
    rw [← hs]
    decide
  · split
    · unfold spliceSegs
      rw [List.drop_length, List.append_nil]
      refine hasERSeg_append _ _ (hasERSeg_take _ h _) (by decide) ?_
      intro s hs
      have hh : (segFromString (toL "LEH") false).head? = some ⟨'L', false⟩ := by decide
      rw [hh] at hs
      simp only [Option.some.injEq] at hs
      rw [← hs]
      decide
    · exact h

theorem renderUpper_cons (a : Seg) (tl : List Seg) :
    renderUpper (a :: tl) = jsToUpper a.ch :: renderUpper tl := rfl

theorem not_endsER_of_not_hasER (l : List Seg) (h : hasERSeg l = false) :
    (toL "ER").isSuffixOf (renderUpper l) = false := by
  induction l with
  | nil => decide
  | cons a tl ih =>
    by_contra hc
    rw [Bool.not_eq_false, List.isSuffixOf_iff_suffix, renderUpper_cons,
      List.suffix_cons_iff] at hc
    rcases hc with hc | hc
    · have h1 : jsToUpper a.ch = 'E' := by
        have := congrArg (fun l => l.head?) hc
        simpa [toL] using this.symm
      have h2 : renderUpper tl = ['R'] := by
        have := congrArg (fun l => l.tail) hc
        simpa [toL] using this.symm
      cases tl with
      | nil => simp [renderUpper, segToString] at h2
      | cons b r =>
        rw [renderUpper_cons] at h2
        simp only [List.cons.injEq] at h2
        exact hasERSeg_pair_false a b r h ⟨h1, h2.1⟩
    · have hrec := ih (hasERSeg_tail _ _ h)
      rw [Bool.eq_false_iff] at hrec
      exact hrec (by rw [List.isSuffixOf_iff_suffix]; exact hc)

theorem hasERSeg_preAH (part : List Char) : hasERSeg (preAH part) = false := by
  unfold preAH
  exact hasERSeg_replaceEndingLY _ (hasERSeg_replaceEndingTY _
    (hasERSeg_replaceEndingTION _ (hasERSeg_replaceAllIRWithAR _
      (hasERSeg_replaceAllERWithAH _))))

/-- C9: when `applyEndingAH` runs inside `transformWordPart` (on the
post-stage-5 state `preAH part`), the rendered string never ends with
`ER` (the earlier ER stage removed every `E`-`R` pair and no
intermediate suffix stage creates one), so the `ER` half of that
branch is unreachable and `endingChangedToAH` is true exactly when the
post-stage-5 string ends with `UR` or with `A`. -/
theorem C9_endingAH_ER_branch_unreachable (part : List Char) :
    (toL "ER").isSuffixOf (renderUpper (preAH part)) = false ∧
    (applyEndingAH (preAH part)).2 =
      ((toL "UR").isSuffixOf (renderUpper (preAH part)) ||
        (toL "A").isSuffixOf (renderUpper (preAH part))) := by
  have hER := not_endsER_of_not_hasER _ (hasERSeg_preAH part)
  refine ⟨hER, ?_⟩
  unfold applyEndingAH
  rw [hER]
  cases hUR : (toL "UR").isSuffixOf (renderUpper (preAH part)) <;>
    cases hA : (toL "A").isSuffixOf (renderUpper (preAH part)) <;>
    simp [hUR, hA]

end Naamrot

namespace Naamrot

/-- Source characters of a chunk (what the scanner consumed for it). -/
def chunkSrc : Chunk → List Char
  | .pass c => [c]
  | .tok t => t

/-- All characters are ASCII letters. -/
def lettersOnly (l : List Char) : Prop := ∀ c ∈ l, isLetter c = true

/-- All characters are ASCII letters or token separators. -/
def tokenChars (l : List Char) : Prop :=
  ∀ c ∈ l, isLetter c = true ∨ c = '-' ∨ c = apos

/-- The word-parts of a token: the non-separator pieces of the split,
exactly the pieces `transformWordToken` feeds to `transformWordPart`. -/
def wordParts (t : List Char) : List (List Char) :=
  (splitKeepSeps t).filter (fun p => !(p == ['-'] || p == [apos]))

theorem splitKeepSeps_head (t : List Char) :
    ∃ q qs, splitKeepSeps t = q :: qs ∧ ∀ c ∈ q, ¬(c = '-' ∨ c = apos) := by
  induction t using splitKeepSeps.induct with
  | case1 => exact ⟨[], [], rfl, by simp⟩
  | case2 c cs h ih =>
    refine ⟨[], [c] :: splitKeepSeps cs, ?_, by simp⟩
    rw [splitKeepSeps, if_pos h]
  | case3 c cs h p0 ps hsplit ih =>
    obtain ⟨q, qs, hq, hchar⟩ := ih
    refine ⟨c :: q, qs, ?_, ?_⟩
    · rw [splitKeepSeps, if_neg h, hq]
    · intro x hx
      rcases List.mem_cons.mp hx with rfl | hxq
      · exact h
      · exact hchar x hxq
  | case4 c cs h hsplit ih =>
    obtain ⟨q, qs, hq, _⟩ := ih
    rw [hq] at hsplit
    cases hsplit

theorem splitKeepSeps_flatten (t : List Char) :
    (splitKeepSeps t).flatten = t := by
  induction t using splitKeepSeps.induct with
  | case1 => rfl
  | case2 c cs h ih =>
    rw [splitKeepSeps, if_pos h]
    simp [ih]
  | case3 c cs h p0 ps hsplit ih =>
    rw [splitKeepSeps, if_neg h, hsplit]
    rw [hsplit] at ih
    simp only [List.flatten_cons] at ih ⊢
    rw [List.cons_append, ih]
  | case4 c cs h hsplit ih =>
    obtain ⟨q, qs, hq, _⟩ := splitKeepSeps_head cs
    rw [hq] at hsplit
    cases hsplit

theorem splitKeepSeps_parts (t : List Char) (ht : tokenChars t) :
    ∀ p ∈ splitKeepSeps t, p = ['-'] ∨ p = [apos] ∨ lettersOnly p := by
  induction t using splitKeepSeps.induct with
  | case1 =>
    intro p hp
    rw [splitKeepSeps] at hp
    simp only [List.mem_singleton] at hp
    subst hp
    right; right
    intro c hc
    cases hc
  | case2 c cs h ih =>
    intro p hp
    rw [splitKeepSeps, if_pos h] at hp
    rcases List.mem_cons.mp hp with rfl | hp2
    · right; right; intro c hc; cases hc
    · rcases List.mem_cons.mp hp2 with rfl | hp3
      · rcases h with rfl | rfl
        · left; rfl
        · right; left; rfl
      · exact ih (fun x hx => ht x (List.mem_cons_of_mem _ hx)) p hp3
  | case3 c cs h p0 ps hsplit ih =>
    intro p hp
    rw [splitKeepSeps, if_neg h, hsplit] at hp
    rcases List.mem_cons.mp hp with rfl | hmem
    · right; right
      intro x hx
      rcases List.mem_cons.mp hx with rfl | hxq
      · rcases ht x (by simp) with hl | hsep
        · exact hl
        · exact absurd hsep h
      · have hp0 : p0 ∈ splitKeepSeps cs := by rw [hsplit]; exact List.mem_cons_self _ _
        obtain ⟨q, qs, hq, hchar⟩ := splitKeepSeps_head cs
        rw [hq] at hsplit
        have hqp : q = p0 := (List.cons.injEq _ _ _ _ ▸ hsplit).1
        rcases ih (fun y hy => ht y (List.mem_cons_of_mem _ hy)) p0 hp0 with h1 | h1 | h1
        · subst hqp h1
          exact absurd (Or.inl rfl) (hchar '-' (by simp))
        · subst hqp h1
          exact absurd (Or.inr rfl) (hchar apos (by simp))
        · exact h1 x hxq
    · exact ih (fun y hy => ht y (List.mem_cons_of_mem _ hy)) p
        (by rw [hsplit]; exact List.mem_cons_of_mem _ hmem)
  | case4 c cs h hsplit ih =>
    obtain ⟨q, qs, hq, _⟩ := splitKeepSeps_head cs
    rw [hq] at hsplit
    cases hsplit

theorem emitTok_flatMap_chunkSrc (tok : List Char) :
    (emitTok tok).flatMap chunkSrc = tok.reverse := by
  unfold emitTok
  by_cases h : tok = []
  · simp [h]
  · simp [h, chunkSrc]

theorem pass_not_mem_emitTok (c : Char) (tok : List Char) :
    Chunk.pass c ∉ emitTok tok := by
  unfold emitTok
  split <;> simp

theorem tok_mem_emitTok (t tok : List Char) (h : Chunk.tok t ∈ emitTok tok) :
    t = tok.reverse := by
  unfold emitTok at h
  split at h
  · cases h
  · simp only [List.mem_singleton, Chunk.tok.injEq] at h
    exact h

theorem scanGo_pass_nonletter (tok l : List Char) :
    ∀ c, Chunk.pass c ∈ scanGo tok l → isLetter c = false := by
  induction tok, l using scanGo.induct with
  | case1 tok =>
    intro c hc
    rw [scanGo] at hc
    exact absurd hc (pass_not_mem_emitTok c tok)
  | case2 tok c0 hc0 =>
    intro c hc
    rw [scanGo, if_pos hc0] at hc
    exact absurd hc (pass_not_mem_emitTok c _)
  | case3 tok c0 hc0 =>
    intro c hc
    rw [scanGo, if_neg hc0] at hc
    rcases List.mem_append.mp hc with hm | hm
    · exact absurd hm (pass_not_mem_emitTok c tok)
    · simp only [List.mem_singleton, Chunk.pass.injEq] at hm
      subst hm
      exact Bool.not_eq_true _ ▸ eq_false_of_ne_true hc0
  | case4 tok c0 d ds hc0 ih =>
    intro c hc
    rw [scanGo, if_pos hc0] at hc
    exact ih c hc
  | case5 tok c0 d ds hc0 hcond ih =>
    intro c hc
    rw [scanGo, if_neg hc0, if_pos hcond] at hc
    exact ih c hc
  | case6 tok c0 d ds hc0 hcond ih =>
    intro c hc
    rw [scanGo, if_neg hc0, if_neg hcond] at hc
    rcases List.mem_append.mp hc with hm | hm
    · exact absurd hm (pass_not_mem_emitTok c tok)
    · rcases List.mem_cons.mp hm with he | hm2
      · have : c = c0 := by
          injection he
        subst this
        exact eq_false_of_ne_true hc0
      · exact ih c hm2

theorem scanGo_tok_chars (tok l : List Char) :
    tokenChars tok → ∀ t, Chunk.tok t ∈ scanGo tok l → tokenChars t := by
  induction tok, l using scanGo.induct with
  | case1 tok =>
    intro htok t ht c hc
    exact htok c (List.mem_reverse.mp (tok_mem_emitTok t tok (by rwa [scanGo] at ht) ▸ hc))
  | case2 tok c0 hc0 =>
    intro htok t ht c hc
    rw [scanGo, if_pos hc0] at ht
    have := tok_mem_emitTok t (c0 :: tok) ht
    subst this
    rcases List.mem_cons.mp (List.mem_reverse.mp hc) with rfl | h
    · exact Or.inl hc0
    · exact htok c h
  | case3 tok c0 hc0 =>
    intro htok t ht c hc
    rw [scanGo, if_neg hc0] at ht
    rcases List.mem_append.mp ht with hm | hm
    · exact htok c (List.mem_reverse.mp (tok_mem_emitTok t tok hm ▸ hc))
    · simp at hm
  | case4 tok c0 d ds hc0 ih =>
    intro htok t ht c hc
    rw [scanGo, if_pos hc0] at ht
    refine ih ?_ t ht c hc
    intro x hx
    rcases List.mem_cons.mp hx with rfl | hx2
    · exact Or.inl hc0
    · exact htok x hx2
  | case5 tok c0 d ds hc0 hcond ih =>
    intro htok t ht c hc
    rw [scanGo, if_neg hc0, if_pos hcond] at ht
    refine ih ?_ t ht c hc
    intro x hx
    rcases List.mem_cons.mp hx with rfl | hx2
    · exact Or.inl hcond.2.2
    · rcases List.mem_cons.mp hx2 with rfl | hx3
      · exact Or.inr hcond.2.1
      · exact htok x hx3
  | case6 tok c0 d ds hc0 hcond ih =>
    intro htok t ht c hc
    rw [scanGo, if_neg hc0, if_neg hcond] at ht
    rcases List.mem_append.mp ht with hm | hm
    · exact htok c (List.mem_reverse.mp (tok_mem_emitTok t tok hm ▸ hc))
    · rcases List.mem_cons.mp hm with he | hm2
      · cases he
      · refine ih ?_ t hm2 c hc
        intro x hx
        cases hx

/-- C10: tokenization treats only the 52 ASCII letters as word
characters: every pass-through chunk of the scan is a non-letter
character, every word-part fed to the per-part pipeline consists of
ASCII letters only, and `convertText` is exactly the chunk outputs
concatenated and then upper-cased. -/
theorem C10_only_ascii_letters_enter_pipeline (input : List Char) :
    (∀ c, Chunk.pass c ∈ chunksOf input → isLetter c = false) ∧
    (∀ t, Chunk.tok t ∈ chunksOf input → ∀ p ∈ wordParts t, lettersOnly p) ∧
    convertText input = jsToUpperString ((chunksOf input).flatMap chunkOut) := by
  refine ⟨fun c hc => scanGo_pass_nonletter [] input c hc, ?_, rfl⟩
  intro t ht p hp
  have htc : tokenChars t :=
    scanGo_tok_chars [] input (fun c hc => absurd hc (List.not_mem_nil c)) t ht
  unfold wordParts at hp
  rw [List.mem_filter] at hp
  have hnot : ¬(p = ['-'] ∨ p = [apos]) := by
    intro hor
    rcases hor with rfl | rfl <;> simp at hp
  rcases splitKeepSeps_parts t htc p hp.1 with h | h | h
  · exact absurd (Or.inl h) hnot
  · exact absurd (Or.inr h) hnot
  · exact h

theorem C10_witness :
    isLetter (Char.ofNat 233) = false ∧ lettersOnly (toL "don") :=
  ⟨(C10_only_ascii_letters_enter_pipeline (toL "h" ++ Char.ofNat 233 :: toL "llo")).1
      (Char.ofNat 233) (by decide),
   (C10_only_ascii_letters_enter_pipeline (toL "don" ++ apos :: toL "t")).2.1
      (toL "don" ++ apos :: toL "t") (by decide) (toL "don") (by decide)⟩

end Naamrot

namespace Naamrot

theorem toNat_ofNat_lt (n : Nat) (h : n < 55296) : (Char.ofNat n).toNat = n := by
  have hv : n.isValidChar := Or.inl h
  simp [Char.ofNat, Char.ofNatAux, hv, Char.toNat, UInt32.toNat, BitVec.toNat_ofNatLt]

theorem isLetter_jsToUpper (c : Char) : isLetter (jsToUpper c) = isLetter c := by
  unfold jsToUpper
  split_ifs with h1 h2 h3
  · have hh := toNat_ofNat_lt (c.toNat - 32) (by omega)
    simp only [isLetter, hh]
    rw [Bool.eq_iff_iff]
    simp only [Bool.or_eq_true, Bool.and_eq_true, decide_eq_true_eq]
    omega
  · have hh := toNat_ofNat_lt (c.toNat - 32) (by omega)
    simp only [isLetter, hh]
    rw [Bool.eq_iff_iff]
    simp only [Bool.or_eq_true, Bool.and_eq_true, decide_eq_true_eq]
    omega
  · have hh := toNat_ofNat_lt 376 (by omega)
    simp only [isLetter, hh]
    rw [Bool.eq_iff_iff]
    simp only [Bool.or_eq_true, Bool.and_eq_true, decide_eq_true_eq]
    omega
  · rfl

/-- All segment characters are ASCII letters. -/
def segLetters (segs : List Seg) : Prop := ∀ s ∈ segs, isLetter s.ch = true

theorem segLetters_segFromString (l : List Char) (b : Bool) (h : lettersOnly l) :
    segLetters (segFromString l b) := by
  intro s hs
  rw [segFromString, List.mem_map] at hs
  obtain ⟨c, hc, rfl⟩ := hs
  exact h c hc

theorem lettersOnly_segToString (segs : List Seg) (h : segLetters segs) :
    lettersOnly (segToString segs) := by
  intro c hc
  rw [segToString, List.mem_map] at hc
  obtain ⟨s, hs, rfl⟩ := hc
  exact h s hs

theorem lettersOnly_map_jsToUpper (l : List Char) (h : lettersOnly l) :
    lettersOnly (l.map jsToUpper) := by
  intro c hc
  rw [List.mem_map] at hc
  obtain ⟨x, hx, rfl⟩ := hc
  rw [isLetter_jsToUpper]
  exact h x hx

theorem segLetters_spliceSegs (segs : List Seg) (a b : Nat) (ins : List Seg)
    (h : segLetters segs) (hins : segLetters ins) :
    segLetters (spliceSegs segs a b ins) := by
  intro s hs
  unfold spliceSegs at hs
  rcases List.mem_append.mp hs with hm | hm
  · rcases List.mem_append.mp hm with hm2 | hm2
    · exact h s ((List.take_sublist a segs).subset hm2)
    · exact hins s hm2
  · exact h s ((List.drop_sublist b segs).subset hm)


theorem segLetters_replaceAllERWithAH (l : List Seg) (h : segLetters l) :
    segLetters (replaceAllERWithAH l) := by
  induction l using replaceAllERWithAH.induct with
  | case1 a b rest hER ih =>
    rw [replaceAllERWithAH, if_pos hER]
    intro s hs
    rcases List.mem_cons.mp hs with rfl | hs2
    · decide
    · rcases List.mem_cons.mp hs2 with rfl | hs3
      · decide
      · exact ih (fun x hx => h x (by simp [hx])) s hs3
  | case2 a b rest hER ih =>
    rw [replaceAllERWithAH, if_neg hER]
    intro s hs
    rcases List.mem_cons.mp hs with rfl | hs2
    · exact h s (List.mem_cons_self _ _)
    · exact ih (fun x hx => h x (List.mem_cons_of_mem _ hx)) s hs2
  | case3 l hl =>
    rw [replaceAllERWithAH.eq_def]
    split
    · rename_i a b rest
      exact absurd rfl (fun hh => hl a b rest hh)
    · exact h

theorem segLetters_replaceAllIRWithAR (l : List Seg) (h : segLetters l) :
    segLetters (replaceAllIRWithAR l) := by
  induction l using replaceAllIRWithAR.induct with
  | case1 a b rest hIR ih =>
    rw [replaceAllIRWithAR, if_pos hIR]
    intro s hs
    rcases List.mem_cons.mp hs with rfl | hs2
    · decide
    · rcases List.mem_cons.mp hs2 with rfl | hs3
      · decide
      · exact ih (fun x hx => h x (by simp [hx])) s hs3
  | case2 a b rest hIR ih =>
    rw [replaceAllIRWithAR, if_neg hIR]
    intro s hs
    rcases List.mem_cons.mp hs with rfl | hs2
    · exact h s (List.mem_cons_self _ _)
    · exact ih (fun x hx => h x (List.mem_cons_of_mem _ hx)) s hs2
  | case3 l hl =>
    rw [replaceAllIRWithAR.eq_def]
    split
    · rename_i a b rest
      exact absurd rfl (fun hh => hl a b rest hh)
    · exact h

theorem segLetters_replaceEndingTION (segs : List Seg) (h : segLetters segs) :
    segLetters (replaceEndingTION segs) := by
  unfold replaceEndingTION
  split
  · exact segLetters_spliceSegs _ _ _ _ h (by unfold segLetters; decide)
  · exact h

theorem segLetters_replaceEndingTY (segs : List Seg) (h : segLetters segs) :
    segLetters (replaceEndingTY segs) := by
  unfold replaceEndingTY
  split
  · exact segLetters_spliceSegs _ _ _ _ h (by unfold segLetters; decide)
  · exact h

theorem segLetters_replaceEndingAY (segs : List Seg) (h : segLetters segs) :
    segLetters (replaceEndingAY segs) := by
  unfold replaceEndingAY
  split
  · exact segLetters_spliceSegs _ _ _ _ h (by unfold segLetters; decide)
  · exact h

theorem segLetters_replaceEndingLY (segs : List Seg) (h : segLetters segs) :
    segLetters (replaceEndingLY segs) := by
  unfold replaceEndingLY
  split
  · exact segLetters_spliceSegs _ _ _ _ h (by unfold segLetters; decide)
  · split
    · exact segLetters_spliceSegs _ _ _ _ h (by unfold segLetters; decide)
    · exact h

theorem segLetters_replaceEndingYToEH (segs : List Seg) (h : segLetters segs) :
    segLetters (replaceEndingYToEH segs) := by
  unfold replaceEndingYToEH
  split
  · exact h
  · split
    · exact segLetters_spliceSegs _ _ _ _ h (by unfold segLetters; decide)
    · exact h

theorem segLetters_applyEndingAH (segs : List Seg) (h : segLetters segs) :
    segLetters (applyEndingAH segs).1 := by
  unfold applyEndingAH
  split
  · exact segLetters_spliceSegs _ _ _ _ h (by unfold segLetters; decide)
  · split
    · exact segLetters_spliceSegs _ _ _ _ h (by unfold segLetters; decide)
    · exact h

theorem segLetters_replaceStartingSNWithSAN (segs : List Seg) (h : segLetters segs) :
    segLetters (replaceStartingSNWithSAN segs) := by
  unfold replaceStartingSNWithSAN
  split
  · split
    · exact segLetters_spliceSegs _ _ _ _ h (by unfold segLetters; decide)
    · exact h
  · exact h

theorem segLetters_replaceStartingSWWithSAW (segs : List Seg) (h : segLetters segs) :
    segLetters (replaceStartingSWWithSAW segs) := by
  unfold replaceStartingSWWithSAW
  split
  · split
    · exact segLetters_spliceSegs _ _ _ _ h (by unfold segLetters; decide)
    · exact h
  · exact h

theorem segLetters_applyPrefixREToRO (segs : List Seg) (h : segLetters segs) :
    segLetters (applyPrefixREToRO segs) := by
  unfold applyPrefixREToRO
  split
  · exact h
  · split
    · split
      · exact segLetters_spliceSegs _ _ _ _ h (by unfold segLetters; decide)
      · exact h
    · exact h

theorem segLetters_applyClusterInsertions (segs : List Seg) (h : segLetters segs) :
    segLetters (applyClusterInsertions segs) := by
  unfold applyClusterInsertions
  split
  · split
    · exact segLetters_spliceSegs _ _ _ _ h (by unfold segLetters; decide)
    · split
      · exact segLetters_spliceSegs _ _ _ _ h (by unfold segLetters; decide)
      · exact h
  · split
    · exact segLetters_spliceSegs _ _ _ _ h (by unfold segLetters; decide)
    · exact h
  · exact h

theorem segLetters_swapGo (orig : List Seg) (b : Nat) (prot : List Nat) :
    ∀ (l : List Seg) (i : Nat), segLetters l → segLetters (swapGo orig b prot i l) := by
  intro l
  induction l with
  | nil => intro i _ s hs; cases hs
  | cons a tl ih =>
    intro i h s hs
    rw [swapGo] at hs
    rcases List.mem_cons.mp hs with heq | hs2
    · by_cases hc : swapCond orig b prot i a = true
      · rw [if_pos hc] at heq; subst heq; decide
      · rw [if_neg hc] at heq; subst heq; exact h _ (List.mem_cons_self _ _)
    · exact ih (i + 1) (fun x hx => h x (List.mem_cons_of_mem _ hx)) s hs2

theorem segLetters_applyVowelSwaps (segs : List Seg) (flag : Bool)
    (h : segLetters segs) : segLetters (applyVowelSwaps segs flag) :=
  segLetters_swapGo _ _ _ segs 0 h

theorem EXCEPTIONS_letters : ∀ ex ∈ EXCEPTIONS, lettersOnly ex.2 := by
  unfold lettersOnly
  decide

theorem lettersOnly_transformWordPart (part : List Char) (h : lettersOnly part) :
    lettersOnly (transformWordPart part) := by
  unfold transformWordPart
  cases happ : applyExceptions part with
  | some out =>
    unfold applyExceptions at happ
    rw [Option.map_eq_some'] at happ
    obtain ⟨ex, hfind, rfl⟩ := happ
    exact lettersOnly_map_jsToUpper _
      (EXCEPTIONS_letters ex (List.mem_of_find?_eq_some hfind))
  | none =>
    refine lettersOnly_map_jsToUpper _ (lettersOnly_segToString _ ?_)
    refine segLetters_applyVowelSwaps _ _ ?_
    refine segLetters_applyClusterInsertions _ ?_
    refine segLetters_applyPrefixREToRO _ ?_
    refine segLetters_replaceStartingSWWithSAW _ ?_
    refine segLetters_replaceStartingSNWithSAN _ ?_
    refine segLetters_replaceEndingYToEH _ ?_
    refine segLetters_replaceEndingAY _ ?_
    refine segLetters_applyEndingAH _ ?_
    unfold preAH
    refine segLetters_replaceEndingLY _ ?_
    refine segLetters_replaceEndingTY _ ?_
    refine segLetters_replaceEndingTION _ ?_
    refine segLetters_replaceAllIRWithAR _ ?_
    refine segLetters_replaceAllERWithAH _ ?_
    exact segLetters_segFromString _ _ h

end Naamrot

namespace Naamrot

theorem filter_nonletter_eq_nil (l : List Char) (h : lettersOnly l) :
    l.filter (fun c => !isLetter c) = [] := by
  rw [List.filter_eq_nil_iff]
  intro c hc
  simp [h c hc]

theorem filter_transformWordToken (t : List Char) (ht : tokenChars t) :
    (transformWordToken t).filter (fun c => !isLetter c) =
      t.filter (fun c => !isLetter c) := by
  conv_rhs => rw [← splitKeepSeps_flatten t]
  unfold transformWordToken
  rw [List.filter_flatten, List.filter_flatten, List.map_map]
  congr 1
  refine List.map_congr_left ?_
  intro p hp
  by_cases hsep : p = ['-'] ∨ p = [apos]
  · simp only [Function.comp]
    rw [if_pos hsep]
  · simp only [Function.comp]
    rw [if_neg hsep]
    have hl : lettersOnly p := by
      rcases splitKeepSeps_parts t ht p hp with h1 | h1 | h1
      · exact absurd (Or.inl h1) hsep
      · exact absurd (Or.inr h1) hsep
      · exact h1
    rw [filter_nonletter_eq_nil _ hl,
      filter_nonletter_eq_nil _ (lettersOnly_transformWordPart p hl)]

theorem emitTok_flatMap_chunkOut (tok : List Char) :
    (emitTok tok).flatMap chunkOut =
      if tok = [] then [] else transformWordToken tok.reverse := by
  unfold emitTok
  by_cases h : tok = [] <;> simp [h, chunkOut]

theorem tokenChars_reverse_cons (c : Char) (tok : List Char)
    (hc : isLetter c = true) (htok : tokenChars tok) : tokenChars (c :: tok) := by
  intro x hx
  rcases List.mem_cons.mp hx with rfl | h2
  · exact Or.inl hc
  · exact htok x h2

theorem scanGo_filter (tok l : List Char) :
    tokenChars tok →
    ((scanGo tok l).flatMap chunkOut).filter (fun c => !isLetter c) =
      (tok.reverse ++ l).filter (fun c => !isLetter c) := by
  induction tok, l using scanGo.induct with
  | case1 tok =>
    intro htok
    rw [scanGo, emitTok_flatMap_chunkOut]
    by_cases h : tok = []
    · simp [h]
    · rw [if_neg h, List.append_nil]
      exact filter_transformWordToken _ (fun c hc => htok c (List.mem_reverse.mp hc))
  | case2 tok c hc =>
    intro htok
    rw [scanGo, if_pos hc, emitTok_flatMap_chunkOut, if_neg (by simp)]
    rw [filter_transformWordToken _
      (fun x hx => tokenChars_reverse_cons c tok hc htok x (List.mem_reverse.mp hx))]
    rw [List.reverse_cons]
  | case3 tok c hc =>
    intro htok
    rw [scanGo, if_neg hc, List.flatMap_append, emitTok_flatMap_chunkOut]
    by_cases h : tok = []
    · simp [h, chunkOut]
    · rw [if_neg h, List.filter_append, List.filter_append,
        filter_transformWordToken _ (fun x hx => htok x (List.mem_reverse.mp hx))]
      simp [chunkOut]
  | case4 tok c d ds hc ih =>
    intro htok
    rw [scanGo, if_pos hc, ih (tokenChars_reverse_cons c tok hc htok)]
    rw [List.reverse_cons, List.append_assoc]
    rfl
  | case5 tok c d ds hc hcond ih =>
    intro htok
    have htok2 : tokenChars (d :: c :: tok) := by
      intro x hx
      rcases List.mem_cons.mp hx with rfl | h2
      · exact Or.inl hcond.2.2
      · rcases List.mem_cons.mp h2 with rfl | h3
        · exact Or.inr hcond.2.1
        · exact htok x h3
    rw [scanGo, if_neg hc, if_pos hcond, ih htok2]
    rw [List.reverse_cons, List.reverse_cons, List.append_assoc, List.append_assoc]
    rfl
  | case6 tok c d ds hc hcond ih =>
    intro htok
    have hrec := ih (fun x hx => absurd hx (List.not_mem_nil x))
    simp only [List.reverse_nil, List.nil_append] at hrec
    rw [scanGo, if_neg hc, if_neg hcond, List.flatMap_append, emitTok_flatMap_chunkOut,
      List.flatMap_cons]
    simp only [chunkOut, List.singleton_append]
    rw [List.filter_append, List.filter_append, List.filter_cons, List.filter_cons, hrec]
    congr 1
    by_cases h : tok = []
    · simp [h]
    · rw [if_neg h]
      exact filter_transformWordToken _ (fun x hx => htok x (List.mem_reverse.mp hx))

theorem jsUpperChars_of_letter (c : Char) (h : isLetter c = true) :
    (jsUpperChars c).filter (fun x => !isLetter x) = [] := by
  have hn : (65 ≤ c.toNat ∧ c.toNat ≤ 90) ∨ (97 ≤ c.toNat ∧ c.toNat ≤ 122) := by
    simpa [isLetter, Bool.or_eq_true, Bool.and_eq_true, decide_eq_true_eq] using h
  unfold jsUpperChars
  rw [if_neg (by omega), if_neg (by omega), if_neg (by omega)]
  simp [isLetter_jsToUpper, h]

theorem filter_jsToUpperString (l : List Char) :
    (jsToUpperString l).filter (fun c => !isLetter c) =
      (jsToUpperString (l.filter (fun c => !isLetter c))).filter
        (fun c => !isLetter c) := by
  induction l with
  | nil => rfl
  | cons c cs ih =>
    simp only [jsToUpperString] at ih
    by_cases hl : isLetter c = true
    · have hdrop : List.filter (fun c => !isLetter c) (c :: cs) =
          List.filter (fun c => !isLetter c) cs := by
        simp [hl]
      simp only [jsToUpperString, List.flatMap_cons, List.filter_append, hdrop]
      rw [jsUpperChars_of_letter c hl, List.nil_append]
      exact ih
    · have hkeep : List.filter (fun c => !isLetter c) (c :: cs) =
          c :: List.filter (fun c => !isLetter c) cs := by
        simp [Bool.not_eq_true] at hl
        simp [hl]
      rw [hkeep]
      simp only [jsToUpperString, List.flatMap_cons, List.filter_append]
      rw [ih]

/-- C1 (amended): the output and the upper-cased input agree on their
in-order non-letter subsequences: erasing every ASCII letter from the
output yields exactly the result of upper-casing the input and erasing
every ASCII letter.  Positions are not preserved (transforms change
lengths), and the final upper-casing can alter a pass-through
non-letter (`é` → `É`) or turn it into letters (`ß` → `SS`), in which
case it leaves the non-letter subsequence on both sides alike.  The
statement applies the same upper-casing to both sides and only needs
that ASCII letters upper-case to ASCII letters, so it holds for the
full JS conversion as well as for this model of it. -/
theorem C1_nonletters_preserved_up_to_uppercase (input : List Char) :
    (convertText input).filter (fun c => !isLetter c) =
      (jsToUpperString input).filter (fun c => !isLetter c) := by
  unfold convertText
  rw [filter_jsToUpperString]
  unfold chunksOf
  rw [scanGo_filter [] input (fun c hc => absurd hc (List.not_mem_nil c))]
  simp only [List.reverse_nil, List.nil_append]
  rw [← filter_jsToUpperString]

/-- C1 counterexample: the claim as stated is false.  For input `"a!"`
the non-letter `!` sits at position 1 of the input but not of the
output (`convertText "a!" = "AH!"`, the ending-A rule lengthens the
word); for the non-letter input `é` (U+00E9) the output is `É`
(U+00C9), so the character is not unchanged; and for the non-letter
input `ß` (U+00DF) the output is the two ASCII letters `"SS"`, so even
the order and multiplicity of non-letters is not preserved. -/
theorem C1_counterexample_nonletters_not_in_place :
    convertText (toL "a!") = toL "AH!" ∧
    (toL "a!")[1]? = some '!' ∧
    isLetter '!' = false ∧
    (convertText (toL "a!"))[1]? ≠ some '!' ∧
    convertText [Char.ofNat 233] ≠ [Char.ofNat 233] ∧
    isLetter (Char.ofNat 233) = false ∧
    convertText [Char.ofNat 223] = toL "SS" ∧
    isLetter (Char.ofNat 223) = false ∧
    (toL "SS").filter (fun c => !isLetter c) = [] := by
  exact ⟨by decide, by decide, by decide, by decide, by decide, by decide,
    by decide, by decide, by decide⟩

end Naamrot
